import Mathlib

/-!
# Verification of the `curated_collection` static file server (`server.py`)

Shallow embedding of the request-to-path resolution logic of `server.py`:
the two Flask handlers `serve_root_files` and `serve_scraped_images`,
together with the library operations they call
(`werkzeug.utils.safe_join`, `posixpath.normpath`, `urllib.parse.unquote`,
`os.path.exists` / `os.path.isfile` / `os.path.basename`, `os.listdir`,
and `flask.send_from_directory`).

Modelling conventions:
* Each handler resolves paths against a fixed absolute root directory
  (`PROJECT_ROOT` for `serve_root_files`, `PROJECT_ROOT/images_scraped`
  for `serve_scraped_images`).  The root is abstracted away: filesystem
  paths are represented by the path component list *relative to the
  handler's root*, and a joined path string `root + "/" + f` is
  represented by its relative part `f`.
* The filesystem is a finite association list from canonical relative
  component lists to file kinds (regular file, directory, or other
  special file), snapshot of the directory contents during the request.
* A handler's externally observable outcome is a `Response`: either the
  file whose bytes are sent (identified by its path under the root), or
  an HTTP 404.  In the source, `abort(404)`, a `NotFound` raised inside
  `send_from_directory`, and any exception reaching the handler's
  `except Exception` block (for example `os.path.exists(None)` raising
  `TypeError` after `safe_join` returns `None`) all produce the same
  404 response; the embedding maps all of them to `Response.notFound`.
-/

namespace Server

/-- Kind of a filesystem object, as distinguished by `os.path.isfile`:
a regular file, a directory, or some other special file. -/
inductive FType where
  | file
  | dir
  | special
deriving DecidableEq, Repr

/-- Snapshot of the directory tree under one handler's root directory.
Keys are canonical path component lists relative to the root
(the key `[]` denotes the root directory itself). -/
structure FS where
  entries : List (List String × FType)
deriving DecidableEq, Repr

/-- Externally observable outcome of a handler: the file served
(identified by its path relative to the handler's root), or HTTP 404. -/
inductive Response where
  | file (relpath : String)
  | notFound
deriving DecidableEq, Repr

/-- Kind of the filesystem object at a canonical relative path, if any. -/
def FS.lookup (fs : FS) (p : List String) : Option FType :=
  (fs.entries.find? (fun e => e.1 == p)).map (·.2)

/-- `str.split('/')`-style splitting of a path string into components;
`acc` holds the characters of the current component in reverse. -/
def splitSlashAux : List Char → List Char → List String
  | acc, [] => [String.mk acc.reverse]
  | acc, c :: rest =>
    if c = '/' then String.mk acc.reverse :: splitSlashAux [] rest
    else splitSlashAux (c :: acc) rest

/-- Models Python `path.split('/')`. -/
def splitSlash (s : String) : List String :=
  splitSlashAux [] s.toList

/-- Models Python `'/'.join(comps)` (on a non-empty list of components). -/
def joinSlash : List String → String
  | [] => ""
  | [c] => c
  | c :: rest => c ++ "/" ++ joinSlash rest

/-- Models Python `s.startswith(p)`. -/
def startsWithAux : List Char → List Char → Bool
  | _, [] => true
  | [], _ :: _ => false
  | c :: cs, p :: ps => c == p && startsWithAux cs ps

/-- Models Python `s.startswith(p)`. -/
def strStartsWith (s p : String) : Bool :=
  startsWithAux s.toList p.toList

/-- Models Python `str.lower()` on one character (ASCII letters; the
image corpus filenames compared by the fallback are ASCII). -/
def pyLowerChar (c : Char) : Char :=
  if 65 ≤ c.toNat ∧ c.toNat ≤ 90 then Char.ofNat (c.toNat + 32) else c

/-- Models Python `str.lower()`. -/
def pyLower (s : String) : String :=
  String.mk (s.toList.map pyLowerChar)

/-- Interpretation of the joined path string `root + "/" + f` by the
operating system when the server calls `os.stat`-based predicates on it:
empty components (from duplicated or trailing slashes) and `.` components
denote the directory itself and are dropped, yielding the canonical
component list relative to the root.  (`..` components never reach the
filesystem in `server.py`: every string passed to `os.path.exists` /
`os.path.isfile` is a `safe_join` result, which contains no `..`
component — see `safe_join_withinRoot` below.) -/
def statComps (f : String) : List String :=
  (splitSlash f).filter (fun c => !(c == "" || c == "."))

/-- Models `os.path.exists(root + "/" + f)` against the snapshot. -/
def FS.os_path_exists (fs : FS) (f : String) : Bool :=
  (fs.lookup (statComps f)).isSome

/-- Models `os.path.isfile(root + "/" + f)` against the snapshot. -/
def FS.os_path_isfile (fs : FS) (f : String) : Bool :=
  fs.lookup (statComps f) == some FType.file

/-- Models `os.listdir(root)`: the names of the immediate entries of the
root directory, in directory order (the order of the snapshot list). -/
def FS.os_listdir (fs : FS) : List String :=
  fs.entries.filterMap (fun e =>
    match e.1 with
    | [n] => some n
    | _ => none)

/-- Models `os.path.basename(root + "/" + f)` for a relative part `f`:
the substring after the last `/` of the joined string. -/
def basename (f : String) : String :=
  (splitSlash f).getLastD ""

/-- CPython `posixpath.normpath` component loop: `acc` holds the
components accepted so far in reverse.  A `..` pops a previous
non-`..` component, accumulates after another `..` (relative paths
only), and is dropped at the start of an absolute path. -/
def normComps (isAbs : Bool) : List String → List String → List String
  | acc, [] => acc.reverse
  | acc, comp :: rest =>
    if comp = "" ∨ comp = "." then normComps isAbs acc rest
    else if comp = ".." then
      match acc with
      | [] => if isAbs then normComps isAbs [] rest else normComps isAbs [".."] rest
      | prev :: accTail =>
        if prev = ".." then normComps isAbs (".." :: prev :: accTail) rest
        else normComps isAbs accTail rest
    else normComps isAbs (comp :: acc) rest

/-- Models CPython `posixpath.normpath`: lexical normalization of a
POSIX path string (collapse `//` and `.`, resolve `..` lexically,
preserve one or exactly two leading slashes, empty result is `.`). -/
def normpath (path : String) : String :=
  if path = "" then "."
  else
    let initialSlashes : Nat :=
      if strStartsWith path "/" then
        (if strStartsWith path "//" ∧ ¬ strStartsWith path "///" then 2 else 1)
      else 0
    let comps := normComps (initialSlashes > 0) [] (splitSlash path)
    let p := String.mk (List.replicate initialSlashes '/') ++ joinSlash comps
    if p = "" then "." else p

/-- Models `werkzeug.utils.safe_join(root, filename)` with the root
directory abstracted: returns the normalized relative part `f` of the
joined path `root + "/" + f`, or `none` when werkzeug rejects the
filename (absolute after normalization, or climbing above the root via
a leading `..`).  On POSIX `_os_alt_seps` is empty, so that check is a
no-op.  (Older werkzeug raised `NotFound` instead of returning `None`;
both are mapped to a 404 by the handlers' `try`/`except`.) -/
def safe_join (filename : String) : Option String :=
  let f := if filename = "" then "" else normpath filename
  if strStartsWith f "/" ∨ f = ".." ∨ strStartsWith f "../" then none
  else some f

/-- Hexadecimal digit test, as in `urllib.parse.unquote`'s `%XX` parsing. -/
def isHexDigitChar (c : Char) : Bool :=
  ('0' ≤ c && c ≤ '9') || ('a' ≤ c && c ≤ 'f') || ('A' ≤ c && c ≤ 'F')

/-- Value of a hexadecimal digit character. -/
def hexDigitVal (c : Char) : Nat :=
  if '0' ≤ c ∧ c ≤ '9' then c.toNat - 48
  else if 'a' ≤ c ∧ c ≤ 'f' then c.toNat - 87
  else if 'A' ≤ c ∧ c ≤ 'F' then c.toNat - 55
  else 0

/-- The Unicode replacement character U+FFFD used by
`bytes.decode('utf-8', errors='replace')`. -/
def replChar : Char := Char.ofNat 0xFFFD

/-- UTF-8 continuation byte test. -/
def isUtf8Cont (b : Nat) : Bool := 0x80 ≤ b && b < 0xC0

/-- Second-byte restrictions of well-formed UTF-8 three-byte sequences
(no overlong encodings, no surrogates). -/
def utf8Valid3 (b1 b2 : Nat) : Bool :=
  (b1 != 0xE0 || 0xA0 ≤ b2) && (b1 != 0xED || b2 < 0xA0)

/-- First/second-byte restrictions of well-formed UTF-8 four-byte
sequences (no overlong encodings, maximum U+10FFFF). -/
def utf8Valid4 (b1 b2 : Nat) : Bool :=
  (b1 != 0xF0 || 0x90 ≤ b2) && (b1 != 0xF4 || b2 < 0x90)

/-- Models `bytes.decode('utf-8', errors='replace')` on the byte run
produced by consecutive percent escapes: well-formed sequences decode
to their code point, ill-formed bytes become U+FFFD.  (The exact number
of replacement characters emitted for a truncated multi-byte sequence
can differ from CPython's maximal-subpart rule; no behavior of
`server.py` modelled here depends on ill-formed escapes.) -/
def utf8DecodeGo : Nat → List Nat → List Char
  | 0, _ => []
  | _ + 1, [] => []
  | fuel + 1, b1 :: rest =>
    if b1 < 0x80 then Char.ofNat b1 :: utf8DecodeGo fuel rest
    else if b1 < 0xC2 then replChar :: utf8DecodeGo fuel rest
    else if b1 < 0xE0 then
      match rest with
      | [] => [replChar]
      | b2 :: rest2 =>
        if isUtf8Cont b2 then
          Char.ofNat ((b1 - 0xC0) * 0x40 + (b2 - 0x80)) :: utf8DecodeGo fuel rest2
        else replChar :: utf8DecodeGo fuel rest
    else if b1 < 0xF0 then
      match rest with
      | b2 :: b3 :: rest3 =>
        if isUtf8Cont b2 && isUtf8Cont b3 && utf8Valid3 b1 b2 then
          Char.ofNat ((b1 - 0xE0) * 0x1000 + (b2 - 0x80) * 0x40 + (b3 - 0x80))
            :: utf8DecodeGo fuel rest3
        else replChar :: utf8DecodeGo fuel rest
      | _ => replChar :: utf8DecodeGo fuel rest
    else if b1 < 0xF5 then
      match rest with
      | b2 :: b3 :: b4 :: rest4 =>
        if isUtf8Cont b2 && isUtf8Cont b3 && isUtf8Cont b4 && utf8Valid4 b1 b2 then
          Char.ofNat
              ((b1 - 0xF0) * 0x40000 + (b2 - 0x80) * 0x1000 +
                (b3 - 0x80) * 0x40 + (b4 - 0x80))
            :: utf8DecodeGo fuel rest4
        else replChar :: utf8DecodeGo fuel rest
      | _ => replChar :: utf8DecodeGo fuel rest
    else replChar :: utf8DecodeGo fuel rest

/-- Models `bytes.decode('utf-8', errors='replace')` on the byte run
produced by consecutive percent escapes: well-formed sequences decode
to their code point, ill-formed bytes become U+FFFD.  (The exact number
of replacement characters emitted for a truncated multi-byte sequence
can differ from CPython's maximal-subpart rule; no behavior of
`server.py` modelled here depends on ill-formed escapes.)  The fuel
argument of `utf8DecodeGo` only makes the recursion structural: each
step consumes at least one byte, so `bs.length` steps always suffice. -/
def utf8DecodeReplace (bs : List Nat) : List Char :=
  utf8DecodeGo bs.length bs

/-- Decode a pending run of percent-escape bytes (held in reverse). -/
def unquoteFlush (pend : List Nat) : List Char :=
  utf8DecodeReplace pend.reverse

/-- Character loop of `urllib.parse.unquote`: maximal runs of valid
`%XX` escapes are collected as bytes and UTF-8-decoded together; a `%`
not followed by two hex digits, and every other character, is passed
through literally. -/
def unquoteAux : List Nat → List Char → List Char
  | pend, [] => unquoteFlush pend
  | pend, '%' :: c1 :: c2 :: rest =>
    if isHexDigitChar c1 && isHexDigitChar c2 then
      unquoteAux ((hexDigitVal c1 * 16 + hexDigitVal c2) :: pend) rest
    else unquoteFlush pend ++ '%' :: unquoteAux [] (c1 :: c2 :: rest)
  | pend, c :: rest => unquoteFlush pend ++ c :: unquoteAux [] rest

/-- Models `urllib.parse.unquote(s)` with the default
`encoding='utf-8', errors='replace'`. -/
def unquote (s : String) : String :=
  String.mk (unquoteAux [] s.toList)

/-- Models `flask.send_from_directory(root, name)`: re-joins safely and
serves the file, raising `NotFound` (mapped to 404 by the caller's
`try`/`except`) when the join fails or the result is not a regular file. -/
def send_from_directory (fs : FS) (name : String) : Response :=
  match safe_join name with
  | none => .notFound
  | some f => if fs.os_path_isfile f then .file f else .notFound

/-- `serve_root_files` from `server.py`: safe-join the request against
`PROJECT_ROOT`, 404 unless the result exists and is a regular file, else
serve it via `send_from_directory(PROJECT_ROOT, filename)`.  A `None`
from `safe_join` makes `os.path.exists` raise `TypeError`, which the
`except Exception` block turns into a 404. -/
def serve_root_files (fs : FS) (filename : String := "index.html") : Response :=
  match safe_join filename with
  | none => .notFound
  | some f =>
    if !fs.os_path_exists f || !fs.os_path_isfile f then .notFound
    else send_from_directory fs filename

/-- The `@app.route('/')` dispatch: an empty requested path invokes
`serve_root_files` with its default argument `'index.html'`. -/
def handle_root_request (fs : FS) (path : String) : Response :=
  if path = "" then serve_root_files fs else serve_root_files fs path

/-- `serve_scraped_images` from `server.py`: decode the (already
URL-decoded) filename once more with `unquote`, safe-join it against
`PROJECT_ROOT/images_scraped`; if the result is not an existing regular
file, fall back to the first `os.listdir` entry whose `lower()` equals
the decoded filename's `lower()`, else 404; finally serve
`os.path.basename(safe_path)` via `send_from_directory`. -/
def serve_scraped_images (fs : FS) (filename : String) : Response :=
  let decoded := unquote filename
  match safe_join decoded with
  | none => .notFound
  | some f =>
    if !fs.os_path_exists f || !fs.os_path_isfile f then
      match fs.os_listdir.find? (fun x => pyLower x == pyLower decoded) with
      | none => .notFound
      | some x =>
        match safe_join x with
        | none => .notFound
        | some f2 => send_from_directory fs (basename f2)
    else send_from_directory fs (basename f)

/-!
## Error-enriched model

`server.py` wraps each handler body in `try: ... except Exception: abort(404)`.
To reason about filesystem access errors (permission denied, I/O errors,
races), the model is enriched with a set of inaccessible paths: any OS
access to such a path raises `OSError`.  `os.path.exists` and
`os.path.isfile` catch `OSError` internally and return `False`;
`os.listdir` and the file `open` performed by `send_file` propagate the
exception, which the handler's `except Exception` turns into a 404.
Raised exceptions are modelled with `Except Unit`; the handler-level
`match` on the body is the `try`/`except` block.
-/

/-- A filesystem snapshot together with the set of paths (canonical
component lists relative to the root; `[]` is the root itself) whose OS
access raises an error during this request. -/
structure EFS where
  fs : FS
  errs : List (List String)

/-- Does an OS access to the joined path `root + "/" + f` raise? -/
def EFS.errAt (e : EFS) (f : String) : Bool :=
  e.errs.contains (statComps f)

/-- `os.path.exists` under errors: `OSError` is caught and yields `False`. -/
def EFS.os_path_existsE (e : EFS) (f : String) : Bool :=
  if e.errAt f then false else e.fs.os_path_exists f

/-- `os.path.isfile` under errors: `OSError` is caught and yields `False`. -/
def EFS.os_path_isfileE (e : EFS) (f : String) : Bool :=
  if e.errAt f then false else e.fs.os_path_isfile f

/-- `os.listdir(root)` under errors: raises when the root directory
itself is inaccessible. -/
def EFS.os_listdirE (e : EFS) : Except Unit (List String) :=
  if e.errs.contains ([] : List String) then .error () else .ok e.fs.os_listdir

/-- `flask.send_from_directory` under errors: the safe join, the
`isfile` re-check (raising `NotFound` on failure), then the `open`
performed by `send_file` (raising `OSError` on an inaccessible file). -/
def send_from_directoryE (e : EFS) (name : String) : Except Unit String :=
  match safe_join name with
  | none => .error ()
  | some f =>
    if !e.os_path_isfileE f then .error ()
    else if e.errAt f then .error ()
    else .ok f

/-- `serve_root_files` under errors: the body may raise; the handler's
`except Exception` block maps every raised error to a 404. -/
def serve_root_filesE (e : EFS) (filename : String := "index.html") : Response :=
  let body : Except Unit String :=
    match safe_join filename with
    | none => .error ()
    | some f =>
      if !e.os_path_existsE f || !e.os_path_isfileE f then .error ()
      else send_from_directoryE e filename
  match body with
  | .error _ => .notFound
  | .ok f => .file f

/-- `serve_scraped_images` under errors: the body may raise; the
handler's `except Exception` block maps every raised error to a 404. -/
def serve_scraped_imagesE (e : EFS) (filename : String) : Response :=
  let decoded := unquote filename
  let body : Except Unit String :=
    match safe_join decoded with
    | none => .error ()
    | some f =>
      if !e.os_path_existsE f || !e.os_path_isfileE f then
        match e.os_listdirE with
        | .error _ => .error ()
        | .ok names =>
          match names.find? (fun x => pyLower x == pyLower decoded) with
          | none => .error ()
          | some x =>
            match safe_join x with
            | none => .error ()
            | some f2 => send_from_directoryE e (basename f2)
      else send_from_directoryE e (basename f)
  match body with
  | .error _ => .notFound
  | .ok f => .file f

/-!
## Specification-side predicates

Predicates used to state the claims; these follow the spec's notions of
a path "contained within its Root Directory" and of a request whose
normalization "climbs above root".
-/

/-- A well-formed filesystem snapshot: entry names are real directory
entry names (non-empty, not `.` or `..`, and containing no `/`). -/
def validName (s : String) : Prop :=
  s ≠ "" ∧ s ≠ "." ∧ s ≠ ".." ∧ '/' ∉ s.toList

/-- Well-formedness of a snapshot: every component of every entry key is
a real directory entry name. -/
def FS.wf (fs : FS) : Prop :=
  ∀ e ∈ fs.entries, ∀ n ∈ e.1, validName n

/-- The joined path `root + "/" + f` stays lexically inside the root:
`f` is relative and contains no `..` segment. -/
def withinRoot (f : String) : Prop :=
  strStartsWith f "/" = false ∧ ".." ∉ splitSlash f

/-- The requested path's lexical normalization climbs above the root:
it is absolute, or its normalized component list starts with `..`. -/
def climbsAbove (s : String) : Prop :=
  strStartsWith s "/" = true ∨
    (normComps false [] (splitSlash s)).head? = some ".."

instance (s : String) : Decidable (validName s) := by
  unfold validName; infer_instance

instance (s : String) : Decidable (withinRoot s) := by
  unfold withinRoot; infer_instance

instance (s : String) : Decidable (climbsAbove s) := by
  unfold climbsAbove; infer_instance

instance (fs : FS) : Decidable fs.wf := by
  unfold FS.wf; infer_instance

/-!
## Basic lemmas about the string primitives
-/

theorem toList_mk (l : List Char) : (String.mk l).toList = l := rfl

theorem mk_toList (s : String) : String.mk s.toList = s := rfl

theorem toList_append (a b : String) : (a ++ b).toList = a.toList ++ b.toList := rfl

theorem str_ext {a b : String} (h : a.toList = b.toList) : a = b := by
  have h2 := congrArg String.mk h
  rwa [mk_toList, mk_toList] at h2

theorem toList_eq_nil_iff {s : String} : s.toList = [] ↔ s = "" :=
  ⟨fun h => str_ext h, fun h => by rw [h]; rfl⟩

theorem empty_append (x : String) : String.mk [] ++ x = x :=
  str_ext (by rw [toList_append]; rfl)

theorem startsWithAux_iff (p : List Char) : ∀ l : List Char,
    (startsWithAux l p = true ↔ ∃ t, l = p ++ t) := by
  induction p with
  | nil => intro l; simp [startsWithAux]
  | cons c cs ih =>
    intro l
    cases l with
    | nil => simp [startsWithAux]
    | cons a as =>
      rw [startsWithAux, Bool.and_eq_true, beq_iff_eq, ih as]
      constructor
      · rintro ⟨rfl, t, rfl⟩; exact ⟨t, rfl⟩
      · rintro ⟨t, ht⟩
        injection ht with h1 h2
        exact ⟨h1, t, h2⟩

theorem strStartsWith_iff (s p : String) :
    strStartsWith s p = true ↔ ∃ t, s.toList = p.toList ++ t := by
  rw [strStartsWith, startsWithAux_iff]

theorem strStartsWith_slash_iff (s : String) :
    strStartsWith s "/" = true ↔ ∃ t, s.toList = '/' :: t := by
  rw [strStartsWith_iff]
  constructor
  · rintro ⟨t, ht⟩; exact ⟨t, ht⟩
  · rintro ⟨t, ht⟩; exact ⟨t, ht⟩

theorem splitSlashAux_noslash : ∀ (l acc : List Char), '/' ∉ l →
    splitSlashAux acc l = [String.mk (acc.reverse ++ l)] := by
  intro l
  induction l with
  | nil => intro acc _; simp [splitSlashAux]
  | cons c rest ih =>
    intro acc h
    have hc : ¬ c = '/' := fun hh => h (by simp [hh])
    rw [splitSlashAux, if_neg hc, ih _ (fun hm => h (List.mem_cons_of_mem _ hm))]
    simp

theorem splitSlashAux_append : ∀ (l1 l2 acc : List Char), '/' ∉ l1 →
    splitSlashAux acc (l1 ++ '/' :: l2) =
      String.mk (acc.reverse ++ l1) :: splitSlashAux [] l2 := by
  intro l1
  induction l1 with
  | nil => intro l2 acc _; simp [splitSlashAux]
  | cons c rest ih =>
    intro l2 acc h
    have hc : ¬ c = '/' := fun hh => h (by simp [hh])
    rw [List.cons_append, splitSlashAux, if_neg hc,
      ih _ _ (fun hm => h (List.mem_cons_of_mem _ hm))]
    simp

theorem splitSlash_noslash (s : String) (h : '/' ∉ s.toList) : splitSlash s = [s] := by
  rw [splitSlash, splitSlashAux_noslash _ _ h]
  simp [mk_toList]

theorem mem_splitSlashAux_noslash : ∀ (l acc : List Char), '/' ∉ acc →
    ∀ x ∈ splitSlashAux acc l, '/' ∉ x.toList := by
  intro l
  induction l with
  | nil =>
    intro acc hacc x hx
    rw [splitSlashAux] at hx
    simp only [List.mem_singleton] at hx
    subst hx
    rw [toList_mk]
    exact fun hm => hacc (List.mem_reverse.mp hm)
  | cons c rest ih =>
    intro acc hacc x hx
    rw [splitSlashAux] at hx
    by_cases hc : c = '/'
    · rw [if_pos hc] at hx
      rcases List.mem_cons.mp hx with h1 | h2
      · subst h1
        rw [toList_mk]
        exact fun hm => hacc (List.mem_reverse.mp hm)
      · exact ih [] (by simp) x h2
    · rw [if_neg hc] at hx
      refine ih (c :: acc) ?_ x hx
      intro hm
      rcases List.mem_cons.mp hm with h1 | h2
      · exact hc h1.symm
      · exact hacc h2

theorem mem_splitSlash_noslash (s : String) : ∀ x ∈ splitSlash s, '/' ∉ x.toList :=
  mem_splitSlashAux_noslash s.toList [] (by simp)

theorem joinSlash_cons_cons (c c2 : String) (rest : List String) :
    joinSlash (c :: c2 :: rest) = c ++ "/" ++ joinSlash (c2 :: rest) := rfl

theorem splitSlash_joinSlash : ∀ (comps : List String), comps ≠ [] →
    (∀ c ∈ comps, '/' ∉ c.toList) → splitSlash (joinSlash comps) = comps := by
  intro comps
  induction comps with
  | nil => intro hne _; exact absurd rfl hne
  | cons c rest ih =>
    intro _ h
    cases rest with
    | nil => exact splitSlash_noslash c (h c (by simp))
    | cons c2 rest2 =>
      rw [joinSlash_cons_cons, splitSlash]
      have hto : (c ++ "/" ++ joinSlash (c2 :: rest2)).toList
          = c.toList ++ '/' :: (joinSlash (c2 :: rest2)).toList := by
        rw [toList_append, toList_append, List.append_assoc]; rfl
      rw [hto, splitSlashAux_append _ _ _ (h c (by simp))]
      have hih := ih (by simp) (fun d hd => h d (List.mem_cons_of_mem _ hd))
      rw [splitSlash] at hih
      rw [hih]
      simp [mk_toList]

/-!
## Structure of `normComps` output

Two facts about CPython's `normpath` component loop: every output
component is a (non-empty, non-`.`) input component or `..`, and all
`..` components of the output form a leading run.
-/

theorem normComps_nil (isAbs : Bool) (acc : List String) :
    normComps isAbs acc [] = acc.reverse := by
  rw [normComps.eq_def]

theorem normComps_cons (isAbs : Bool) (acc : List String) (comp : String)
    (rest : List String) :
    normComps isAbs acc (comp :: rest) =
      (if comp = "" ∨ comp = "." then normComps isAbs acc rest
      else if comp = ".." then
        match acc with
        | [] => if isAbs then normComps isAbs [] rest else normComps isAbs [".."] rest
        | prev :: accTail =>
          if prev = ".." then normComps isAbs (".." :: prev :: accTail) rest
          else normComps isAbs accTail rest
      else normComps isAbs (comp :: acc) rest) := by
  rw [normComps.eq_def]

theorem normComps_skip (isAbs : Bool) (acc : List String) (comp : String)
    (rest : List String) (h : comp = "" ∨ comp = ".") :
    normComps isAbs acc (comp :: rest) = normComps isAbs acc rest := by
  rw [normComps_cons, if_pos h]

theorem normComps_dd_nilacc (isAbs : Bool) (rest : List String) :
    normComps isAbs [] (".." :: rest) =
      if isAbs then normComps isAbs [] rest else normComps isAbs [".."] rest := by
  rw [normComps_cons, if_neg (by decide), if_pos rfl]

theorem normComps_dd_stack (isAbs : Bool) (prev : String) (accTail rest : List String)
    (h : prev = "..") :
    normComps isAbs (prev :: accTail) (".." :: rest) =
      normComps isAbs (".." :: prev :: accTail) rest := by
  rw [normComps_cons, if_neg (by decide), if_pos rfl]
  show (if prev = ".." then normComps isAbs (".." :: prev :: accTail) rest
    else normComps isAbs accTail rest) = _
  rw [if_pos h]

theorem normComps_dd_pop (isAbs : Bool) (prev : String) (accTail rest : List String)
    (h : ¬ prev = "..") :
    normComps isAbs (prev :: accTail) (".." :: rest) = normComps isAbs accTail rest := by
  rw [normComps_cons, if_neg (by decide), if_pos rfl]
  show (if prev = ".." then normComps isAbs (".." :: prev :: accTail) rest
    else normComps isAbs accTail rest) = _
  rw [if_neg h]

theorem normComps_push (isAbs : Bool) (acc : List String) (comp : String)
    (rest : List String) (h1 : ¬(comp = "" ∨ comp = ".")) (h2 : ¬ comp = "..") :
    normComps isAbs acc (comp :: rest) = normComps isAbs (comp :: acc) rest := by
  rw [normComps_cons, if_neg h1, if_neg h2]

theorem normComps_subset (isAbs : Bool) : ∀ (parts acc : List String),
    ∀ x ∈ normComps isAbs acc parts,
      x ∈ acc ∨ (x ∈ parts ∧ x ≠ "" ∧ x ≠ ".") := by
  intro parts
  induction parts with
  | nil =>
    intro acc x hx
    rw [normComps_nil] at hx
    exact Or.inl (List.mem_reverse.mp hx)
  | cons comp rest ih =>
    intro acc x hx
    by_cases h1 : comp = "" ∨ comp = "."
    · rw [normComps_skip _ _ _ _ h1] at hx
      rcases ih acc x hx with h | ⟨h2, h3⟩
      · exact Or.inl h
      · exact Or.inr ⟨List.mem_cons_of_mem _ h2, h3⟩
    · by_cases h2 : comp = ".."
      · subst h2
        cases acc with
        | nil =>
          rw [normComps_dd_nilacc] at hx
          by_cases h3 : isAbs = true
          · rw [if_pos h3] at hx
            rcases ih [] x hx with h | ⟨h4, h5⟩
            · simp at h
            · exact Or.inr ⟨List.mem_cons_of_mem _ h4, h5⟩
          · rw [if_neg h3] at hx
            rcases ih [".."] x hx with h | ⟨h4, h5⟩
            · rw [List.mem_singleton] at h
              subst h
              exact Or.inr ⟨List.mem_cons_self _ _, by decide⟩
            · exact Or.inr ⟨List.mem_cons_of_mem _ h4, h5⟩
        | cons prev accTail =>
          by_cases h3 : prev = ".."
          · rw [normComps_dd_stack _ _ _ _ h3] at hx
            rcases ih _ x hx with h | ⟨h4, h5⟩
            · rcases List.mem_cons.mp h with h6 | h6
              · subst h6
                exact Or.inr ⟨List.mem_cons_self _ _, by decide⟩
              · exact Or.inl h6
            · exact Or.inr ⟨List.mem_cons_of_mem _ h4, h5⟩
          · rw [normComps_dd_pop _ _ _ _ h3] at hx
            rcases ih _ x hx with h | ⟨h4, h5⟩
            · exact Or.inl (List.mem_cons_of_mem _ h)
            · exact Or.inr ⟨List.mem_cons_of_mem _ h4, h5⟩
      · rw [normComps_push _ _ _ _ h1 h2] at hx
        rcases ih _ x hx with h | ⟨h4, h5⟩
        · rcases List.mem_cons.mp h with h6 | h6
          · subst h6
            exact Or.inr ⟨List.mem_cons_self _ _,
              fun he => h1 (Or.inl he), fun he => h1 (Or.inr he)⟩
          · exact Or.inl h6
        · exact Or.inr ⟨List.mem_cons_of_mem _ h4, h5⟩

theorem normComps_dd_shape (isAbs : Bool) : ∀ (parts acc pre : List String) (m : Nat),
    acc = pre ++ List.replicate m ".." → ".." ∉ pre →
      ∃ m2 post, normComps isAbs acc parts = List.replicate m2 ".." ++ post ∧
        ".." ∉ post := by
  intro parts
  induction parts with
  | nil =>
    intro acc pre m h1 h2
    refine ⟨m, pre.reverse, ?_, fun hm => h2 (List.mem_reverse.mp hm)⟩
    rw [normComps_nil, h1, List.reverse_append, List.reverse_replicate]
  | cons comp rest ih =>
    intro acc pre m h1 h2
    by_cases hc1 : comp = "" ∨ comp = "."
    · rw [normComps_skip _ _ _ _ hc1]
      exact ih acc pre m h1 h2
    · by_cases hc2 : comp = ".."
      · subst hc2
        cases acc with
        | nil =>
          rw [normComps_dd_nilacc]
          by_cases h3 : isAbs = true
          · rw [if_pos h3]; exact ih [] [] 0 rfl (by simp)
          · rw [if_neg h3]; exact ih [".."] [] 1 rfl (by simp)
        | cons prev accTail =>
          by_cases h4 : prev = ".."
          · rw [normComps_dd_stack _ _ _ _ h4]
            have hpre0 : pre = [] := by
              cases pre with
              | nil => rfl
              | cons p ps =>
                rw [List.cons_append] at h1
                injection h1 with ha _
                exact absurd (by rw [← ha, h4]; exact List.mem_cons_self _ _) h2
            subst hpre0
            rw [List.nil_append] at h1
            refine ih _ [] (m + 1) ?_ (by simp)
            rw [List.nil_append, List.replicate_succ, ← h1]
          · rw [normComps_dd_pop _ _ _ _ h4]
            cases pre with
            | nil =>
              rw [List.nil_append] at h1
              cases m with
              | zero => exact absurd h1 (by simp)
              | succ k =>
                rw [List.replicate_succ] at h1
                injection h1 with ha _
                exact absurd ha h4
            | cons p ps =>
              rw [List.cons_append] at h1
              injection h1 with _ hb
              exact ih accTail ps m hb (fun hm => h2 (List.mem_cons_of_mem _ hm))
      · rw [normComps_push _ _ _ _ hc1 hc2]
        refine ih (comp :: acc) (comp :: pre) m ?_ ?_
        · rw [List.cons_append, h1]
        · intro hm
          rcases List.mem_cons.mp hm with h5 | h5
          · exact hc2 h5.symm
          · exact h2 h5

theorem normComps_no_dd (isAbs : Bool) (parts : List String)
    (h : (normComps isAbs [] parts).head? ≠ some "..") :
    ".." ∉ normComps isAbs [] parts := by
  obtain ⟨m, post, heq, hpost⟩ := normComps_dd_shape isAbs parts [] [] 0 rfl (by simp)
  cases m with
  | zero => rw [heq, List.replicate_zero, List.nil_append]; exact hpost
  | succ k =>
    exfalso
    exact h (by rw [heq, List.replicate_succ]; rfl)

/-!
## Analysis of `normpath` and `safe_join`

The central safety facts: a successful `safe_join` result is a relative
path with no `..` component, and every input whose normalization climbs
above the root is rejected.
-/

theorem mk_slash_append_ne (l : List Char) (x : String) :
    ¬ String.mk ('/' :: l) ++ x = "" := by
  intro hh
  have h2 : '/' :: (l ++ x.toList) = ([] : List Char) := congrArg String.toList hh
  exact List.noConfusion h2

theorem strStartsWith_mk_slash (l : List Char) (x : String) :
    strStartsWith (String.mk ('/' :: l) ++ x) "/" = true := by
  show startsWithAux ('/' :: (l ++ x.toList)) ['/'] = true
  simp [startsWithAux]

theorem normpath_of_not_abs (s : String) (hs : ¬ s = "") (h : strStartsWith s "/" = false) :
    normpath s =
      if joinSlash (normComps false [] (splitSlash s)) = "" then "."
      else joinSlash (normComps false [] (splitSlash s)) := by
  simp only [normpath, if_neg hs, h, Bool.false_eq_true, if_false, Nat.lt_irrefl,
    gt_iff_lt, List.replicate_zero, empty_append, decide_eq_false_iff_not, not_false_iff]
  rfl

theorem strStartsWith_ite_slash (k : Nat) (x : String) :
    strStartsWith
      (if String.mk (List.replicate (k + 1) '/') ++ x = "" then "."
      else String.mk (List.replicate (k + 1) '/') ++ x) "/" = true := by
  rw [List.replicate_succ, if_neg (mk_slash_append_ne _ _)]
  exact strStartsWith_mk_slash _ _

theorem normpath_abs_startsWith (s : String) (hs : ¬ s = "") (h : strStartsWith s "/" = true) :
    strStartsWith (normpath s) "/" = true := by
  simp only [normpath, if_neg hs, h, eq_self_iff_true, if_true, gt_iff_lt]
  by_cases h2 : strStartsWith s "//" = true ∧ ¬ strStartsWith s "///" = true
  · rw [if_pos h2]
    exact strStartsWith_ite_slash 1 _
  · rw [if_neg h2]
    exact strStartsWith_ite_slash 0 _

theorem safe_join_empty : safe_join "" = some "" := rfl

theorem safe_join_dot : safe_join "." = some "." := by decide

theorem safe_join_eq (s : String) (hs : ¬ s = "") :
    safe_join s =
      if strStartsWith (normpath s) "/" ∨ normpath s = ".." ∨
          strStartsWith (normpath s) "../" then none
      else some (normpath s) := by
  simp only [safe_join, if_neg hs]

theorem strStartsWith_false_of_ne_true {s p : String} (h : ¬ strStartsWith s p = true) :
    strStartsWith s p = false := by
  cases hb : strStartsWith s p with
  | false => rfl
  | true => exact absurd hb h

theorem safe_join_shape (s f : String) (h : safe_join s = some f) :
    f = "" ∨ f = "." ∨
      ∃ comps, comps ≠ [] ∧ f = joinSlash comps ∧ ".." ∉ comps ∧
        ∀ c ∈ comps, c ≠ "" ∧ c ≠ "." ∧ '/' ∉ c.toList := by
  by_cases hs : s = ""
  · subst hs
    rw [safe_join_empty] at h
    exact Or.inl (Option.some.inj h).symm
  · by_cases habs : strStartsWith s "/" = true
    · exfalso
      rw [safe_join_eq s hs, if_pos (Or.inl (normpath_abs_startsWith s hs habs))] at h
      exact Option.noConfusion h
    · have habs' := strStartsWith_false_of_ne_true habs
      rw [safe_join_eq s hs, normpath_of_not_abs s hs habs'] at h
      have helts : ∀ c ∈ normComps false [] (splitSlash s),
          c ≠ "" ∧ c ≠ "." ∧ '/' ∉ c.toList := by
        intro c hc
        rcases normComps_subset false (splitSlash s) [] c hc with h0 | ⟨h1, h2, h3⟩
        · simp at h0
        · exact ⟨h2, h3, mem_splitSlash_noslash s c h1⟩
      by_cases hj : joinSlash (normComps false [] (splitSlash s)) = ""
      · rw [if_pos hj, if_neg (by decide :
          ¬(strStartsWith "." "/" = true ∨ ("." : String) = ".." ∨
            strStartsWith "." "../" = true))] at h
        exact Or.inr (Or.inl (Option.some.inj h).symm)
      · rw [if_neg hj] at h
        have hcne : normComps false [] (splitSlash s) ≠ [] := by
          intro h0; rw [h0] at hj; exact hj rfl
        by_cases hg : strStartsWith (joinSlash (normComps false [] (splitSlash s))) "/" = true ∨
            joinSlash (normComps false [] (splitSlash s)) = ".." ∨
            strStartsWith (joinSlash (normComps false [] (splitSlash s))) "../" = true
        · rw [if_pos hg] at h; exact Option.noConfusion h
        · rw [if_neg hg] at h
          refine Or.inr (Or.inr ⟨normComps false [] (splitSlash s), hcne,
            (Option.some.inj h).symm, ?_, helts⟩)
          apply normComps_no_dd
          intro hhead
          apply hg
          cases hc : normComps false [] (splitSlash s) with
          | nil => rw [hc] at hhead; exact absurd hhead (by simp)
          | cons c0 cr =>
            rw [hc] at hhead
            have hc0 : c0 = ".." := by simpa using hhead
            subst hc0
            cases cr with
            | nil =>
              right; left
              rfl
            | cons c1 cr2 =>
              right; right
              rw [joinSlash_cons_cons]
              refine (strStartsWith_iff _ _).mpr ⟨(joinSlash (c1 :: cr2)).toList, ?_⟩
              rw [toList_append, toList_append, List.append_assoc]
              rfl

theorem safe_join_withinRoot (s f : String) (h : safe_join s = some f) : withinRoot f := by
  rcases safe_join_shape s f h with h1 | h1 | ⟨comps, hne, hf, hdd, helts⟩
  · subst h1; exact ⟨by decide, by decide⟩
  · subst h1; exact ⟨by decide, by decide⟩
  · subst hf
    constructor
    · cases hb : strStartsWith (joinSlash comps) "/" with
      | false => rfl
      | true =>
        exfalso
        obtain ⟨t, ht⟩ := (strStartsWith_slash_iff _).mp hb
        cases comps with
        | nil => exact hne rfl
        | cons c rest =>
          cases rest with
          | nil =>
            refine (helts c (by simp)).2.2 ?_
            rw [show joinSlash [c] = c from rfl] at ht
            rw [ht]
            exact List.mem_cons_self _ _
          | cons c2 r2 =>
            rw [joinSlash_cons_cons, toList_append, toList_append] at ht
            cases hct : c.toList with
            | nil => exact (helts c (by simp)).1 (toList_eq_nil_iff.mp hct)
            | cons ch ct =>
              rw [hct] at ht
              have hch : ch = '/' := by
                have h2 := congrArg List.head? ht
                simpa using h2
              refine (helts c (by simp)).2.2 ?_
              rw [hct, hch]
              exact List.mem_cons_self _ _
    · rw [splitSlash_joinSlash comps hne (fun c hc => (helts c hc).2.2)]
      exact hdd

theorem safe_join_of_plain (s : String) (h1 : ¬ s = "") (h2 : ¬ s = ".") (h3 : ¬ s = "..")
    (h4 : '/' ∉ s.toList) : safe_join s = some s := by
  have habs : strStartsWith s "/" = false := by
    apply strStartsWith_false_of_ne_true
    intro hb
    obtain ⟨t, ht⟩ := (strStartsWith_slash_iff s).mp hb
    exact h4 (by rw [ht]; exact List.mem_cons_self _ _)
  have hnc : normComps false [] (splitSlash s) = [s] := by
    rw [splitSlash_noslash s h4,
      normComps_push _ _ _ _ (by rintro (hh | hh); exacts [h1 hh, h2 hh]) h3,
      normComps_nil]
    rfl
  rw [safe_join_eq s h1, normpath_of_not_abs s h1 habs, hnc,
    show joinSlash [s] = s from rfl, if_neg h1]
  rw [if_neg ?_]
  rintro (hg | hg | hg)
  · rw [habs] at hg; exact Bool.noConfusion hg
  · exact h3 hg
  · obtain ⟨t, ht⟩ := (strStartsWith_iff s "../").mp hg
    refine h4 ?_
    rw [ht]
    exact List.mem_append_left _ (by decide)

theorem safe_join_validName {e : String} (h : validName e) : safe_join e = some e :=
  safe_join_of_plain e h.1 h.2.1 h.2.2.1 h.2.2.2

theorem safe_join_none_char (s : String) (h : safe_join s = none) :
    strStartsWith s "/" = true ∨ '/' ∈ s.toList ∨ s = ".." := by
  by_contra hc
  push_neg at hc
  obtain ⟨h1, h2, h3⟩ := hc
  by_cases hd : s = "."
  · subst hd; rw [safe_join_dot] at h; exact Option.noConfusion h
  · by_cases he : s = ""
    · subst he; rw [safe_join_empty] at h; exact Option.noConfusion h
    · rw [safe_join_of_plain s he hd h3 h2] at h
      exact Option.noConfusion h

theorem safe_join_climbs (s : String) (h : climbsAbove s) : safe_join s = none := by
  have hs : ¬ s = "" := by
    intro hh; subst hh
    rcases h with h | h
    · exact absurd h (by decide)
    · exact absurd h (by decide)
  rcases h with habs | hdd
  · rw [safe_join_eq s hs, if_pos (Or.inl (normpath_abs_startsWith s hs habs))]
  · by_cases habs : strStartsWith s "/" = true
    · rw [safe_join_eq s hs, if_pos (Or.inl (normpath_abs_startsWith s hs habs))]
    · have habs' := strStartsWith_false_of_ne_true habs
      rw [safe_join_eq s hs, normpath_of_not_abs s hs habs']
      cases hc : normComps false [] (splitSlash s) with
      | nil => rw [hc] at hdd; exact absurd hdd (by simp)
      | cons c0 cr =>
        rw [hc] at hdd
        have hc0 : c0 = ".." := by simpa using hdd
        subst hc0
        cases cr with
        | nil =>
          rw [if_neg (by decide : ¬ (joinSlash [".."] = ""))]
          exact if_pos (Or.inr (Or.inl rfl))
        | cons c1 cr2 =>
          have hne2 : ¬ joinSlash (".." :: c1 :: cr2) = "" := by
            intro hh
            have h3 := congrArg String.toList hh
            rw [joinSlash_cons_cons, toList_append, toList_append] at h3
            simp at h3
          rw [if_neg hne2]
          refine if_pos (Or.inr (Or.inr ?_))
          rw [joinSlash_cons_cons]
          refine (strStartsWith_iff _ _).mpr ⟨(joinSlash (c1 :: cr2)).toList, ?_⟩
          rw [toList_append, toList_append, List.append_assoc]
          rfl

/-!
## Lemmas about `pyLower`, well-formed snapshots and the handlers
-/

theorem char_toNat_ofNat {n : Nat} (h1 : 97 ≤ n) (h2 : n ≤ 122) :
    (Char.ofNat n).toNat = n := by
  unfold Char.ofNat
  split
  · rfl
  · next h => exact absurd (by omega : n.isValidChar) h

theorem pyLowerChar_eq_of_nonletter {c d : Char} (hd : d.toNat < 97 ∨ 122 < d.toNat)
    (h : pyLowerChar c = d) : c = d := by
  unfold pyLowerChar at h
  split at h
  · next hr =>
    exfalso
    have h2 := congrArg Char.toNat h
    rw [char_toNat_ofNat (by omega) (by omega)] at h2
    omega
  · exact h

theorem pyLowerChar_slash {c : Char} (h : pyLowerChar c = '/') : c = '/' :=
  pyLowerChar_eq_of_nonletter (by decide) h

theorem pyLowerChar_dot {c : Char} (h : pyLowerChar c = '.') : c = '.' :=
  pyLowerChar_eq_of_nonletter (by decide) h

theorem pyLower_toList (s : String) : (pyLower s).toList = s.toList.map pyLowerChar := rfl

theorem slash_mem_pyLower {s : String} : '/' ∈ (pyLower s).toList ↔ '/' ∈ s.toList := by
  rw [pyLower_toList]
  constructor
  · intro h
    obtain ⟨c, hc, he⟩ := List.mem_map.mp h
    rwa [pyLowerChar_slash he] at hc
  · intro h
    exact List.mem_map.mpr ⟨'/', h, by decide⟩

theorem pyLower_dotdot {e : String} (h : pyLower e = "..") : e = ".." := by
  have h2 : e.toList.map pyLowerChar = ['.', '.'] := by
    have h3 := congrArg String.toList h
    rwa [pyLower_toList] at h3
  apply str_ext
  cases he : e.toList with
  | nil => rw [he] at h2; simp at h2
  | cons c1 t =>
    rw [he] at h2
    cases t with
    | nil => simp at h2
    | cons c2 t2 =>
      cases t2 with
      | nil =>
        simp only [List.map, List.cons.injEq, and_true] at h2
        rw [pyLowerChar_dot h2.1, pyLowerChar_dot h2.2]
        rfl
      | cons c3 t3 => simp at h2

theorem mem_os_listdir_wf {fs : FS} (hwf : fs.wf) {x : String}
    (hx : x ∈ fs.os_listdir) : validName x := by
  obtain ⟨e, he, hfe⟩ := List.mem_filterMap.mp hx
  cases h1 : e.1 with
  | nil => rw [h1] at hfe; exact Option.noConfusion hfe
  | cons n t =>
    cases t with
    | nil =>
      rw [h1] at hfe
      have hn : n = x := Option.some.inj hfe
      subst hn
      exact hwf e he n (by rw [h1]; exact List.mem_cons_self _ _)
    | cons _ _ => rw [h1] at hfe; exact Option.noConfusion hfe

theorem statComps_of_plain {e : String} (h1 : e ≠ "") (h2 : e ≠ ".")
    (h4 : '/' ∉ e.toList) : statComps e = [e] := by
  rw [statComps, splitSlash_noslash e h4]
  simp [h1, h2]

theorem basename_of_plain {e : String} (h4 : '/' ∉ e.toList) : basename e = e := by
  rw [basename, splitSlash_noslash e h4]
  rfl

theorem find?_eq_head_filter {α : Type} (p : α → Bool) : ∀ l : List α,
    l.find? p = (l.filter p).head? := by
  intro l
  induction l with
  | nil => rfl
  | cons a t ih =>
    cases h : p a with
    | true => simp only [List.find?_cons, List.filter_cons, h, if_true, List.head?_cons]
    | false => simp only [List.find?_cons, List.filter_cons, h, ih, Bool.false_eq_true,
        if_false]

theorem exists_of_isfile {fs : FS} {f : String} (h : fs.os_path_isfile f = true) :
    fs.os_path_exists f = true := by
  rw [FS.os_path_isfile, beq_iff_eq] at h
  rw [FS.os_path_exists, h]
  rfl

theorem send_eq_file {fs : FS} {name r : String}
    (h : send_from_directory fs name = .file r) :
    safe_join name = some r ∧ fs.os_path_isfile r = true := by
  unfold send_from_directory at h
  split at h
  · exact absurd h (by simp)
  · next f hsome =>
    split at h
    · next hfile =>
      have hfr : f = r := by injection h
      subst hfr
      exact ⟨hsome, hfile⟩
    · exact absurd h (by simp)

theorem serve_root_files_file {fs : FS} {fn r : String}
    (h : serve_root_files fs fn = .file r) :
    safe_join fn = some r ∧ fs.os_path_isfile r = true := by
  unfold serve_root_files at h
  split at h
  · exact absurd h (by simp)
  · split at h
    · exact absurd h (by simp)
    · exact send_eq_file h

theorem serve_scraped_images_file {fs : FS} {fn r : String}
    (h : serve_scraped_images fs fn = .file r) :
    (∃ s, safe_join s = some r) ∧ fs.os_path_isfile r = true := by
  simp only [serve_scraped_images] at h
  split at h
  · exact absurd h (by simp)
  · next f hsome =>
    split at h
    · split at h
      · exact absurd h (by simp)
      · split at h
        · exact absurd h (by simp)
        · next f2 hsj2 =>
          obtain ⟨hs, hf⟩ := send_eq_file h
          exact ⟨⟨basename f2, hs⟩, hf⟩
    · obtain ⟨hs, hf⟩ := send_eq_file h
      exact ⟨⟨basename f, hs⟩, hf⟩

/-!
## Claim theorems
-/

/-- Example snapshot used by several witnesses: a root containing a
regular file `index.html`. -/
def demoFS : FS := ⟨[([], FType.dir), (["index.html"], FType.file)]⟩

/-- Claim C1: for every root and every requestedPath, resolve never
returns a path outside root; in particular every requestedPath whose
normalization would climb above root (a leading `..` after
normalization, or an absolute path) yields Not Found, in both the
root-files and the image variants, and every successfully served path
is relative with no `..` component. -/
theorem claim_C1_traversal_safety (fs : FS) (fn : String) :
    (climbsAbove fn → serve_root_files fs fn = .notFound) ∧
    (climbsAbove (unquote fn) → serve_scraped_images fs fn = .notFound) ∧
    (∀ r, serve_root_files fs fn = .file r → withinRoot r) ∧
    (∀ r, serve_scraped_images fs fn = .file r → withinRoot r) := by
  refine ⟨?_, ?_, ?_, ?_⟩
  · intro h
    simp [serve_root_files, safe_join_climbs fn h]
  · intro h
    simp [serve_scraped_images, safe_join_climbs _ h]
  · intro r h
    exact safe_join_withinRoot fn r (serve_root_files_file h).1
  · intro r h
    obtain ⟨⟨s, hs⟩, _⟩ := serve_scraped_images_file h
    exact safe_join_withinRoot s r hs

/-- Witness for C1 at a concrete traversal input. -/
theorem claim_C1_witness :
    climbsAbove "../etc/passwd" ∧
    serve_root_files demoFS "../etc/passwd" = Response.notFound ∧
    serve_scraped_images demoFS "../etc/passwd" = Response.notFound :=
  ⟨by decide, (claim_C1_traversal_safety demoFS "../etc/passwd").1 (by decide),
    (claim_C1_traversal_safety demoFS "../etc/passwd").2.1 (by decide)⟩

/-- Claim C2: whenever resolve returns a Resolved Path (rather than Not
Found), that path is an existing regular file contained within its Root
Directory — including when selected by the case-insensitive fallback of
the image variant. -/
theorem claim_C2_resolved_invariant (fs : FS) (fn r : String) :
    (serve_root_files fs fn = .file r →
      fs.os_path_isfile r = true ∧ withinRoot r) ∧
    (serve_scraped_images fs fn = .file r →
      fs.os_path_isfile r = true ∧ withinRoot r) := by
  constructor
  · intro h
    obtain ⟨hs, hf⟩ := serve_root_files_file h
    exact ⟨hf, safe_join_withinRoot _ _ hs⟩
  · intro h
    obtain ⟨⟨s, hs⟩, hf⟩ := serve_scraped_images_file h
    exact ⟨hf, safe_join_withinRoot _ _ hs⟩

/-- Witness for C2 at a concrete resolved file. -/
theorem claim_C2_witness :
    serve_root_files demoFS "index.html" = Response.file "index.html" ∧
    demoFS.os_path_isfile "index.html" = true ∧ withinRoot "index.html" := by
  refine ⟨by decide, ?_, ?_⟩
  · exact ((claim_C2_resolved_invariant demoFS "index.html" "index.html").1 (by decide)).1
  · exact ((claim_C2_resolved_invariant demoFS "index.html" "index.html").1 (by decide)).2

/-- Snapshot for the C3 counterexample: the only case-insensitive match
of the request is a directory, not a regular file. -/
def c3cexFS : FS := ⟨[([], FType.dir), (["photo.jpg"], FType.dir)]⟩

/-- Counterexample to claim C3 as stated: the direct lookup fails and
exactly one entry's lowercase form equals the requested path's lowercase
form, yet that entry does not become the Resolved Path — the handler
returns Not Found, because the unique match is a directory. -/
theorem claim_C3_counterexample :
    safe_join (unquote "PHOTO.JPG") = some "PHOTO.JPG" ∧
    c3cexFS.os_path_isfile "PHOTO.JPG" = false ∧
    c3cexFS.os_listdir.filter
      (fun x => pyLower x == pyLower (unquote "PHOTO.JPG")) = ["photo.jpg"] ∧
    serve_scraped_images c3cexFS "PHOTO.JPG" = Response.notFound ∧
    serve_scraped_images c3cexFS "PHOTO.JPG" ≠ Response.file "photo.jpg" := by
  decide

/-- Claim C3 (amended): in the image variant, when the direct lookup
fails and exactly one directory entry's lowercase form equals the
decoded requested path's lowercase form, and that entry is a regular
file, the entry (joined safely with root) becomes the Resolved Path. -/
theorem claim_C3_fallback_amended (fs : FS) (fn e : String) (hwf : fs.wf)
    (hdirect : ∀ f, safe_join (unquote fn) = some f →
      (!fs.os_path_exists f || !fs.os_path_isfile f) = true)
    (huniq : fs.os_listdir.filter
      (fun x => pyLower x == pyLower (unquote fn)) = [e])
    (hfile : fs.lookup [e] = some FType.file) :
    serve_scraped_images fs fn = .file e := by
  have hmem : e ∈ fs.os_listdir := by
    refine List.mem_of_mem_filter (p := fun x => pyLower x == pyLower (unquote fn)) ?_
    rw [huniq]
    exact List.mem_singleton.mpr rfl
  have hvn : validName e := mem_os_listdir_wf hwf hmem
  have hematch : pyLower e = pyLower (unquote fn) := by
    have hin : e ∈ fs.os_listdir.filter
        (fun x => pyLower x == pyLower (unquote fn)) := by
      rw [huniq]; exact List.mem_singleton.mpr rfl
    have hp := List.of_mem_filter hin
    rwa [beq_iff_eq] at hp
  have hfind : fs.os_listdir.find?
      (fun x => pyLower x == pyLower (unquote fn)) = some e := by
    rw [find?_eq_head_filter, huniq]
    rfl
  have hsj_e : safe_join e = some e := safe_join_validName hvn
  have hbn : basename e = e := basename_of_plain hvn.2.2.2
  have hisf : fs.os_path_isfile e = true := by
    rw [FS.os_path_isfile, statComps_of_plain hvn.1 hvn.2.1 hvn.2.2.2, hfile]
    rfl
  cases hsj : safe_join (unquote fn) with
  | some f =>
    have hcond := hdirect f hsj
    simp [serve_scraped_images, hsj, hcond, hfind, hsj_e, hbn,
      send_from_directory, hisf]
  | none =>
    exfalso
    have hnoslash : '/' ∉ (unquote fn).toList := by
      intro hsl
      have h1 := slash_mem_pyLower.mpr hsl
      rw [← hematch] at h1
      exact hvn.2.2.2 (slash_mem_pyLower.mp h1)
    rcases safe_join_none_char _ hsj with h | h | h
    · obtain ⟨t, ht⟩ := (strStartsWith_slash_iff _).mp h
      exact hnoslash (by rw [ht]; exact List.mem_cons_self _ _)
    · exact hnoslash h
    · rw [h] at hematch
      exact hvn.2.2.1 (pyLower_dotdot (by rw [hematch]; decide))

/-- Snapshot for the C3 witness: the spec's own example, a root
containing the regular file `Photo.JPG`. -/
def c3winFS : FS := ⟨[([], FType.dir), (["Photo.JPG"], FType.file)]⟩

/-- Witness for C3 (amended) at the spec's example `Photo.JPG` /
`photo.jpg`. -/
theorem claim_C3_witness :
    serve_scraped_images c3winFS "photo.jpg" = Response.file "Photo.JPG" :=
  claim_C3_fallback_amended c3winFS "photo.jpg" "Photo.JPG" (by decide)
    (fun f hf => by
      have h1 : safe_join (unquote "photo.jpg") = some "photo.jpg" := by decide
      rw [h1] at hf
      rw [← Option.some.inj hf]
      decide)
    (by decide) (by decide)

/-- Snapshot for the C4 counterexample: a directory `sub` with a
case-variant regular-file sibling `SUB` listed first. -/
def c4cexFS : FS := ⟨[([], FType.dir), (["SUB"], FType.file), (["sub"], FType.dir)]⟩

/-- Counterexample to claim C4 as stated: the request `sub` safe-joins
to an existing directory, yet the image variant does not return Not
Found — the case-insensitive fallback matches the sibling regular file
`SUB` and serves it. -/
theorem claim_C4_counterexample :
    safe_join (unquote "sub") = some "sub" ∧
    c4cexFS.lookup (statComps "sub") = some FType.dir ∧
    serve_scraped_images c4cexFS "sub" = Response.file "SUB" := by
  decide

/-- Claim C4 (amended): a requestedPath that safe-joins to an existing
directory yields Not Found in the root-files variant; in the image
variant it yields Not Found unless the case-insensitive fallback's
first match is served instead, in which case the response is some
existing regular file — never a listing of the directory's contents. -/
theorem claim_C4_directory_amended (fs : FS) (fn : String) :
    (∀ f, safe_join fn = some f → fs.lookup (statComps f) = some FType.dir →
      serve_root_files fs fn = .notFound) ∧
    (∀ f, safe_join (unquote fn) = some f →
      fs.lookup (statComps f) = some FType.dir →
      serve_scraped_images fs fn = .notFound ∨
        ∃ x r, fs.os_listdir.find?
            (fun y => pyLower y == pyLower (unquote fn)) = some x ∧
          serve_scraped_images fs fn = .file r ∧ fs.os_path_isfile r = true) := by
  constructor
  · intro f hsj hdir
    have hnf : fs.os_path_isfile f = false := by
      rw [FS.os_path_isfile, hdir]
      rfl
    simp [serve_root_files, hsj, hnf]
  · intro f hsj hdir
    cases hresp : serve_scraped_images fs fn with
    | notFound => exact Or.inl rfl
    | file r =>
      right
      have hnf : fs.os_path_isfile f = false := by
        rw [FS.os_path_isfile, hdir]
        rfl
      cases hfind : fs.os_listdir.find?
          (fun y => pyLower y == pyLower (unquote fn)) with
      | none =>
        exfalso
        have hnot : serve_scraped_images fs fn = .notFound := by
          simp [serve_scraped_images, hsj, hnf, hfind]
        rw [hnot] at hresp
        exact Response.noConfusion hresp
      | some x =>
        exact ⟨x, r, rfl, rfl, (serve_scraped_images_file hresp).2⟩

/-- Snapshot for the C4 witness: a root containing only a directory. -/
def c4winFS : FS := ⟨[([], FType.dir), (["d"], FType.dir)]⟩

/-- Witness for C4 (amended) at a concrete directory request. -/
theorem claim_C4_witness :
    serve_root_files c4winFS "d" = Response.notFound ∧
    (serve_scraped_images c4winFS "d" = Response.notFound ∨
      ∃ x r, c4winFS.os_listdir.find?
          (fun y => pyLower y == pyLower (unquote "d")) = some x ∧
        serve_scraped_images c4winFS "d" = Response.file r ∧
        c4winFS.os_path_isfile r = true) :=
  ⟨(claim_C4_directory_amended c4winFS "d").1 "d" (by decide) (by decide),
    (claim_C4_directory_amended c4winFS "d").2 "d" (by decide) (by decide)⟩

/-- Snapshots for C6: an image root containing the nested regular file
`sub/a.jpg`, without and with a top-level file `a.jpg`. -/
def c6aFS : FS := ⟨[([], FType.dir), (["sub"], FType.dir), (["sub", "a.jpg"], FType.file)]⟩

/-- Companion snapshot for C6 with a same-named top-level file. -/
def c6bFS : FS :=
  ⟨[([], FType.dir), (["sub"], FType.dir), (["sub", "a.jpg"], FType.file),
    (["a.jpg"], FType.file)]⟩

/-- Claim C6 is violated by the code (code bug): the image handler
passes `os.path.basename(safe_path)` to `send_from_directory` even on a
direct hit, so an existing nested regular file `sub/a.jpg` yields a 404
(or, when a top-level `a.jpg` also exists, the bytes of the wrong
file), although `safe_join` resolved the request to the existing nested
file; the root-files handler serves the same nested path correctly. -/
theorem claim_C6_nested_image_bug :
    c6aFS.os_path_isfile "sub/a.jpg" = true ∧
    serve_scraped_images c6aFS "sub/a.jpg" = Response.notFound ∧
    c6bFS.os_path_isfile "sub/a.jpg" = true ∧
    serve_scraped_images c6bFS "sub/a.jpg" = Response.file "a.jpg" ∧
    serve_root_files c6aFS "sub/a.jpg" = Response.file "sub/a.jpg" := by
  decide

/-- Claim C7: on the root resolver an empty requestedPath defaults to
`index.html`: it resolves to `index.html` when that is an existing
regular file under the project root, and to Not Found otherwise. -/
theorem claim_C7_default_index (fs : FS) :
    (fs.os_path_isfile "index.html" = true →
      handle_root_request fs "" = .file "index.html") ∧
    (fs.os_path_isfile "index.html" = false →
      handle_root_request fs "" = .notFound) := by
  have hsj : safe_join "index.html" = some "index.html" := by decide
  constructor
  · intro h
    have hex := exists_of_isfile h
    simp [handle_root_request, serve_root_files, send_from_directory, hsj, h, hex]
  · intro h
    simp [handle_root_request, serve_root_files, send_from_directory, hsj, h]

/-- Witness for C7 in both directions. -/
theorem claim_C7_witness :
    handle_root_request demoFS "" = Response.file "index.html" ∧
    handle_root_request ⟨[([], FType.dir)]⟩ "" = Response.notFound :=
  ⟨(claim_C7_default_index demoFS).1 (by decide),
    (claim_C7_default_index ⟨[([], FType.dir)]⟩).2 (by decide)⟩

/-- Claim C8: resolution is deterministic and idempotent — both
handlers are pure functions of the request string and the directory
contents (the lookup table and the directory listing); two calls
against the same directory contents return identical results. -/
theorem claim_C8_deterministic (fs1 fs2 : FS) (fn : String)
    (hl : ∀ p, fs1.lookup p = fs2.lookup p)
    (hd : fs1.os_listdir = fs2.os_listdir) :
    serve_root_files fs1 fn = serve_root_files fs2 fn ∧
    serve_scraped_images fs1 fn = serve_scraped_images fs2 fn := by
  have hex : ∀ f, fs1.os_path_exists f = fs2.os_path_exists f := fun f => by
    rw [FS.os_path_exists, FS.os_path_exists, hl]
  have hfi : ∀ f, fs1.os_path_isfile f = fs2.os_path_isfile f := fun f => by
    rw [FS.os_path_isfile, FS.os_path_isfile, hl]
  have hsd : ∀ n, send_from_directory fs1 n = send_from_directory fs2 n := fun n => by
    cases h : safe_join n <;> simp [send_from_directory, h, hfi]
  constructor
  · cases h : safe_join fn <;>
      simp [serve_root_files, h, hex, hfi, hsd]
  · cases h : safe_join (unquote fn) <;>
      simp [serve_scraped_images, h, hex, hfi, hsd, hd]

/-- Witness for C8 at a concrete snapshot and request. -/
theorem claim_C8_witness :
    serve_root_files demoFS "index.html" = serve_root_files demoFS "index.html" ∧
    serve_scraped_images demoFS "index.html" = serve_scraped_images demoFS "index.html" :=
  claim_C8_deterministic demoFS demoFS "index.html" (fun _ => rfl) rfl

/-- Claim C9: the case-insensitive fallback of the image variant
matches only a single path segment: when the decoded requestedPath
contains a path separator and the direct lookup failed, the fallback
finds no match and the handler returns Not Found. -/
theorem claim_C9_fallback_single_segment (fs : FS) (fn : String) (hwf : fs.wf)
    (hsl : '/' ∈ (unquote fn).toList)
    (hdirect : ∀ f, safe_join (unquote fn) = some f →
      fs.os_path_isfile f = false) :
    fs.os_listdir.find? (fun x => pyLower x == pyLower (unquote fn)) = none ∧
    serve_scraped_images fs fn = .notFound := by
  have hfind : fs.os_listdir.find?
      (fun x => pyLower x == pyLower (unquote fn)) = none := by
    rw [List.find?_eq_none]
    intro x hx hbeq
    rw [beq_iff_eq] at hbeq
    have h1 : '/' ∈ (pyLower (unquote fn)).toList := slash_mem_pyLower.mpr hsl
    rw [← hbeq] at h1
    exact (mem_os_listdir_wf hwf hx).2.2.2 (slash_mem_pyLower.mp h1)
  refine ⟨hfind, ?_⟩
  cases hsj : safe_join (unquote fn) with
  | none => simp [serve_scraped_images, hsj]
  | some f =>
    have hf := hdirect f hsj
    simp [serve_scraped_images, hsj, hf, hfind]

/-- Snapshot for the C9 witness: a flat image root. -/
def c9winFS : FS := ⟨[([], FType.dir), (["a.jpg"], FType.file)]⟩

/-- Witness for C9 at a concrete nested request. -/
theorem claim_C9_witness :
    c9winFS.os_listdir.find?
      (fun x => pyLower x == pyLower (unquote "sub/a.jpg")) = none ∧
    serve_scraped_images c9winFS "sub/a.jpg" = Response.notFound :=
  claim_C9_fallback_single_segment c9winFS "sub/a.jpg" (by decide) (by decide)
    (fun f hf => by
      have h1 : safe_join (unquote "sub/a.jpg") = some "sub/a.jpg" := by decide
      rw [h1] at hf
      rw [← Option.some.inj hf]
      decide)

/-- Snapshot for C10: an image root whose on-disk filename contains a
literal percent-escape sequence. -/
def pctFS : FS := ⟨[([], FType.dir), (["a%20b.jpg"], FType.file)]⟩

/-- Claim C10: the image handler percent-decodes its already-decoded
input once more, so its result depends only on `unquote` of the
filename; consequently a file literally named `a%20b.jpg` cannot be
retrieved by its literal name — the handler decodes it to `a b.jpg`
and returns Not Found. -/
theorem claim_C10_double_decode (fs : FS) (s1 s2 : String)
    (h : unquote s1 = unquote s2) :
    serve_scraped_images fs s1 = serve_scraped_images fs s2 ∧
    (pctFS.os_path_isfile "a%20b.jpg" = true ∧
      serve_scraped_images pctFS "a%20b.jpg" = Response.notFound) := by
  constructor
  · simp only [serve_scraped_images, h]
  · exact ⟨by decide, by decide⟩

/-- Witness for C10 at two concrete inputs with equal decodings. -/
theorem claim_C10_witness :
    serve_scraped_images pctFS "a%41.jpg" = serve_scraped_images pctFS "aA.jpg" :=
  (claim_C10_double_decode pctFS "a%41.jpg" "aA.jpg" (by decide)).1

/-!
## Claim C5: error handling
-/

theorem EFS_noerr_errAt (e : EFS) (h : e.errs = []) (f : String) :
    e.errAt f = false := by
  rw [EFS.errAt, h]
  rfl

theorem EFS_noerr_exists (e : EFS) (h : e.errs = []) (f : String) :
    e.os_path_existsE f = e.fs.os_path_exists f := by
  rw [EFS.os_path_existsE, EFS_noerr_errAt e h f]
  simp

theorem EFS_noerr_isfile (e : EFS) (h : e.errs = []) (f : String) :
    e.os_path_isfileE f = e.fs.os_path_isfile f := by
  rw [EFS.os_path_isfileE, EFS_noerr_errAt e h f]
  simp

theorem EFS_noerr_listdir (e : EFS) (h : e.errs = []) :
    e.os_listdirE = .ok e.fs.os_listdir := by
  rw [EFS.os_listdirE, h]
  rfl

theorem sendE_ok {e : EFS} {name f : String}
    (h : send_from_directoryE e name = .ok f) :
    e.fs.os_path_isfile f = true ∧ e.errAt f = false := by
  unfold send_from_directoryE at h
  split at h
  · exact absurd h (by simp)
  · next f0 hsj =>
    split at h
    · exact absurd h (by simp)
    · next h1 =>
      split at h
      · exact absurd h (by simp)
      · next h2 =>
        have hf : f0 = f := by injection h
        subst hf
        have h1' : e.os_path_isfileE f0 = true := by
          cases hb : e.os_path_isfileE f0 with
          | true => rfl
          | false => exact absurd (by rw [hb]; rfl) h1
        have h2' : e.errAt f0 = false := by
          cases hb : e.errAt f0 with
          | false => rfl
          | true => exact absurd hb h2
        rw [EFS.os_path_isfileE, h2'] at h1'
        simp at h1'
        exact ⟨h1', h2'⟩

theorem serve_root_filesE_cases (e : EFS) (fn : String) :
    serve_root_filesE e fn = .notFound ∨
      ∃ p, serve_root_filesE e fn = .file p ∧ e.fs.os_path_isfile p = true ∧
        e.errAt p = false := by
  simp only [serve_root_filesE]
  cases hsj : safe_join fn with
  | none => left; simp [hsj]
  | some f =>
    simp only [hsj]
    by_cases hc : (!e.os_path_existsE f || !e.os_path_isfileE f) = true
    · left; simp [hc]
    · rw [if_neg hc]
      cases hs : send_from_directoryE e fn with
      | error u => left; simp [hs]
      | ok p =>
        right
        exact ⟨p, by simp [hs], (sendE_ok hs).1, (sendE_ok hs).2⟩

theorem serve_scraped_imagesE_cases (e : EFS) (fn : String) :
    serve_scraped_imagesE e fn = .notFound ∨
      ∃ p, serve_scraped_imagesE e fn = .file p ∧ e.fs.os_path_isfile p = true ∧
        e.errAt p = false := by
  simp only [serve_scraped_imagesE]
  cases hsj : safe_join (unquote fn) with
  | none => left; simp [hsj]
  | some f =>
    simp only [hsj]
    by_cases hc : (!e.os_path_existsE f || !e.os_path_isfileE f) = true
    · rw [if_pos hc]
      cases hld : e.os_listdirE with
      | error u => left; simp [hld]
      | ok names =>
        simp only [hld]
        cases hfind : names.find? (fun x => pyLower x == pyLower (unquote fn)) with
        | none => left; simp [hfind]
        | some x =>
          simp only [hfind]
          cases hsjx : safe_join x with
          | none => left; simp [hsjx]
          | some f2 =>
            simp only [hsjx]
            cases hs : send_from_directoryE e (basename f2) with
            | error u => left; simp [hs]
            | ok p =>
              right
              exact ⟨p, by simp [hs], (sendE_ok hs).1, (sendE_ok hs).2⟩
    · rw [if_neg hc]
      cases hs : send_from_directoryE e (basename f) with
      | error u => left; simp [hs]
      | ok p =>
        right
        exact ⟨p, by simp [hs], (sendE_ok hs).1, (sendE_ok hs).2⟩

theorem sendE_noerr (e : EFS) (h : e.errs = []) (name : String) :
    (match send_from_directoryE e name with
      | .error _ => Response.notFound
      | .ok f => Response.file f) = send_from_directory e.fs name := by
  unfold send_from_directoryE send_from_directory
  cases hsj : safe_join name with
  | none => simp [hsj]
  | some f =>
    simp only [hsj, EFS_noerr_isfile e h, EFS_noerr_errAt e h]
    cases hisf : e.fs.os_path_isfile f with
    | true => simp [hisf]
    | false => simp [hisf]

theorem serve_rootE_agree (e : EFS) (h : e.errs = []) (fn : String) :
    serve_root_filesE e fn = serve_root_files e.fs fn := by
  simp only [serve_root_filesE, serve_root_files]
  cases hsj : safe_join fn with
  | none => simp [hsj]
  | some f =>
    simp only [hsj, EFS_noerr_exists e h, EFS_noerr_isfile e h]
    by_cases hc : (!e.fs.os_path_exists f || !e.fs.os_path_isfile f) = true
    · simp [hc]
    · simp only [if_neg hc]
      exact sendE_noerr e h fn

theorem serve_imagesE_agree (e : EFS) (h : e.errs = []) (fn : String) :
    serve_scraped_imagesE e fn = serve_scraped_images e.fs fn := by
  simp only [serve_scraped_imagesE, serve_scraped_images]
  cases hsj : safe_join (unquote fn) with
  | none => simp [hsj]
  | some f =>
    simp only [hsj, EFS_noerr_exists e h, EFS_noerr_isfile e h, EFS_noerr_listdir e h]
    by_cases hc : (!e.fs.os_path_exists f || !e.fs.os_path_isfile f) = true
    · simp only [if_pos hc]
      cases hfind : e.fs.os_listdir.find?
          (fun x => pyLower x == pyLower (unquote fn)) with
      | none => simp [hfind]
      | some x =>
        simp only [hfind]
        cases hsjx : safe_join x with
        | none => simp [hsjx]
        | some f2 =>
          simp only [hsjx]
          exact sendE_noerr e h (basename f2)
    · simp only [if_neg hc]
      exact sendE_noerr e h (basename f)

/-- Claim C5: in the error-enriched model, every request produces
either a 404 or the bytes of an error-free existing regular file (the
handlers are total and collapse all raised errors to 404), and when no
access error occurs the enriched handlers agree with the plain ones. -/
theorem claim_C5_error_collapse (e : EFS) (fn : String) :
    (serve_root_filesE e fn = .notFound ∨
      ∃ p, serve_root_filesE e fn = .file p ∧ e.fs.os_path_isfile p = true ∧
        e.errAt p = false) ∧
    (serve_scraped_imagesE e fn = .notFound ∨
      ∃ p, serve_scraped_imagesE e fn = .file p ∧ e.fs.os_path_isfile p = true ∧
        e.errAt p = false) ∧
    (e.errs = [] → serve_root_filesE e fn = serve_root_files e.fs fn) ∧
    (e.errs = [] → serve_scraped_imagesE e fn = serve_scraped_images e.fs fn) :=
  ⟨serve_root_filesE_cases e fn, serve_scraped_imagesE_cases e fn,
    fun h => serve_rootE_agree e h fn, fun h => serve_imagesE_agree e h fn⟩

/-- Witness for C5: agreement at a concrete error-free snapshot, and a
concrete inaccessible file yielding the same 404 as a missing one. -/
theorem claim_C5_witness :
    (serve_root_filesE ⟨demoFS, []⟩ "index.html" =
      serve_root_files demoFS "index.html") ∧
    (serve_scraped_imagesE ⟨demoFS, []⟩ "index.html" =
      serve_scraped_images demoFS "index.html") ∧
    serve_root_filesE ⟨demoFS, [["index.html"]]⟩ "index.html" = Response.notFound :=
  ⟨(claim_C5_error_collapse ⟨demoFS, []⟩ "index.html").2.2.1 rfl,
    (claim_C5_error_collapse ⟨demoFS, []⟩ "index.html").2.2.2 rfl,
    by decide⟩

end Server
